import Mathlib

/-!
Shallow embedding of the Gitjira reconciliation scripts.

Each definition below translates one Python function (or the pure core of
one) from the repository sources: commits.py, github_script.py,
Contributors.py and jira_script.py.  Timestamps are modelled as integers,
Python dictionaries as association lists in insertion order, Python None
and missing fields as Option, and the network as an explicit oracle or a
scripted list of responses.  Python string methods lower/upper/split are
modelled character-wise (ASCII), matching their behaviour on the ASCII
texts the scripts handle.  Loops whose iteration count depends on remote
data take an explicit fuel argument; every run of interest consumes less
fuel than supplied, so the fuel never truncates the modelled behaviour.
-/

/-! ## Python string primitives -/

/-- Model of the Python str.lower method (ASCII). -/
def pyLower (s : String) : String := String.mk (s.data.map Char.toLower)

/-- Model of the Python str.upper method (ASCII). -/
def pyUpper (s : String) : String := String.mk (s.data.map Char.toUpper)

/-- Helper for pySplitDot: walks the characters, cutting at each dot. -/
def splitDotAux : List Char → List Char → List String
  | [], acc => [String.mk acc]
  | c :: rest, acc =>
    if c = '.' then String.mk acc :: splitDotAux rest []
    else splitDotAux rest (acc ++ [c])

/-- Model of the Python expression keys.split(".").  On the empty string it
returns a single empty segment, exactly as Python does. -/
def pySplitDot (s : String) : List String := splitDotAux s.data []

/-! ## Timeline Mapper (commits.py, map_commits_to_stages)

The Python function fetches the transitions and commits of one issue and
then runs a pure mapping loop.  The two fetches are modelled as the two
list arguments; the loop body is translated verbatim. -/

/-- One status transition from the issue changelog (to_stage plus
transition_date), as built by fetch_jira_transitions. -/
structure Transition where
  to_stage : String
  transition_date : Int
deriving DecidableEq

/-- One commit record (sha plus author date), as built by
get_commits_for_jira_key. -/
structure CommitRec where
  sha : String
  date : Int
deriving DecidableEq

/-- One row appended to stage_commits by map_commits_to_stages. -/
structure StageCommit where
  jira_key : String
  commit_sha : String
  commit_date : Int
  stage : String
deriving DecidableEq

/-- Model of transitions.sort(key=transition_date): Python list.sort is a
stable ascending sort, which insertionSort with a total preorder is too. -/
def sortTransitions (ts : List Transition) : List Transition :=
  List.insertionSort (fun a b => a.transition_date ≤ b.transition_date) ts

/-- Model of commits.sort(key=date), stable ascending by commit date. -/
def sortCommits (cs : List CommitRec) : List CommitRec :=
  List.insertionSort (fun a b => a.date ≤ b.date) cs

/-- Inner loop of map_commits_to_stages: walk every transition and
overwrite current_stage whenever commit_date >= transition_date. -/
def advanceStage (ts : List Transition) (t : Int) (cur : String) : String :=
  ts.foldl (fun s tr => if t ≥ tr.transition_date then tr.to_stage else s) cur

/-- Outer loop of map_commits_to_stages: the current stage carries over
from one commit to the next. -/
def mapStagesGo (jk : String) (ts : List Transition) : List CommitRec → String → List StageCommit
  | [], _ => []
  | c :: rest, cur =>
    let cur2 := advanceStage ts c.date cur
    ⟨jk, c.sha, c.date, cur2⟩ :: mapStagesGo jk ts rest cur2

/-- Model of map_commits_to_stages (commits.py lines 191-219) given the
already-fetched transition and commit lists for one issue. -/
def map_commits_to_stages (jk : String) (transitions : List Transition)
    (commits : List CommitRec) : List StageCommit :=
  if commits.isEmpty then []
  else mapStagesGo jk (sortTransitions transitions) (sortCommits commits) "TO DO"

/-- Specification-side stage assignment: the to_stage of the latest
transition (last in the ascending sorted order) whose timestamp is at most
t, and the initial stage "TO DO" when no transition is that early. -/
def latestStage (ts : List Transition) (t : Int) : String :=
  match (ts.filter (fun tr => tr.transition_date ≤ t)).getLast? with
  | some tr => tr.to_stage
  | none => "TO DO"

/-! ## Reference extraction (Contributors.py extract_jira_issue_keys and
github_script.py extract_tags)

Both Python functions are re.findall scans.  The regexes involved,
([A-Z][A-Z0-9]*-[0-9]+) and #(\w+)|tags?:?\s*(\d+), have character classes
that are disjoint from their following literals, so the greedy
deterministic matcher below is extensionally the Python matcher: at every
position the leftmost alternative is tried first, quantifiers take their
maximal run, and a matched region is consumed whole (findall returns
non-overlapping matches left to right). -/

/-- Character class [A-Z]. -/
def isUpperAlpha (c : Char) : Bool := 'A' ≤ c && c ≤ 'Z'

/-- Character class [0-9]. -/
def isDigitChar (c : Char) : Bool := '0' ≤ c && c ≤ '9'

/-- Character class [A-Z0-9]. -/
def isUpperAlnum (c : Char) : Bool := isUpperAlpha c || isDigitChar c

/-- Word characters of the regex class \w, restricted to ASCII. -/
def isWordChar (c : Char) : Bool :=
  isUpperAlnum c || ('a' ≤ c && c ≤ 'z') || c = '_'

/-- Whitespace characters of the regex class \s (ASCII). -/
def isSpaceChar (c : Char) : Bool :=
  c = ' ' || c = '\t' || c = '\n' || c = '\r' || c.toNat = 11 || c.toNat = 12

/-- Try to match ([A-Z][A-Z0-9]*-[0-9]+) at the head of the character
list; on success return the matched key and the remaining characters. -/
def matchKeyAt : List Char → Option (List Char × List Char)
  | [] => none
  | c :: rest =>
    if isUpperAlpha c then
      match rest.dropWhile isUpperAlnum with
      | [] => none
      | d :: rest2 =>
        if d = '-' then
          let digits := rest2.takeWhile isDigitChar
          if digits.isEmpty then none
          else some (c :: rest.takeWhile isUpperAlnum ++ '-' :: digits,
                     rest2.dropWhile isDigitChar)
        else none
    else none

/-- Non-overlapping left-to-right scan of re.findall for the issue-key
regex; the fuel is the length of the scanned list, and every step consumes
at least one character, so the fuel never runs out. -/
def findKeysAux : Nat → List Char → List (List Char)
  | 0, _ => []
  | Nat.succ n, l =>
    match l with
    | [] => []
    | _ :: rest =>
      match matchKeyAt l with
      | some (m, r) => m :: findKeysAux n r
      | none => findKeysAux n rest

/-- Model of extract_jira_issue_keys (Contributors.py lines 62-67): None
or empty message gives [], otherwise findall on the upper-cased text. -/
def extract_jira_issue_keys (message : Option String) : List String :=
  match message with
  | none => []
  | some m =>
    if m = "" then []
    else (findKeysAux (pyUpper m).data.length (pyUpper m).data).map (fun cs => String.mk cs)

/-- Shape check for the tail of a well-formed key: alphanumerics, one
hyphen, then one or more digits to the end. -/
def keyTailShape : List Char → Bool
  | [] => false
  | c :: rest =>
    if c = '-' then !rest.isEmpty && rest.all isDigitChar
    else isUpperAlnum c && keyTailShape rest

/-- Shape check for a well-formed issue key: an uppercase letter, then
alphanumerics, a hyphen, and a non-empty digit run. -/
def isKeyShape : List Char → Bool
  | [] => false
  | c :: rest => isUpperAlpha c && keyTailShape rest

/-- Try to match the alternative #(\w+) at the head of the list, returning
the captured group (without the hash) and the remainder. -/
def matchHashAt : List Char → Option (List Char × List Char)
  | [] => none
  | c :: rest =>
    if c = '#' then
      let w := rest.takeWhile isWordChar
      if w.isEmpty then none else some (w, rest.dropWhile isWordChar)
    else none

/-- Consume one optional leading character, as the regex quantifier c?
does: taking a present head greedily is complete here because the
continuations of both optional characters exclude them. -/
def dropOpt (c : Char) (l : List Char) : List Char :=
  match l with
  | d :: r => if d = c then r else l
  | [] => []

/-- Try to match the alternative tags?:?\s*(\d+) at the head of the list,
returning the captured digit group and the remainder.  The optional s and
colon are taken greedily; skipping them can never rescue a failing match
because the following character classes exclude them. -/
def matchTagsWordAt : List Char → Option (List Char × List Char)
  | t :: a :: g :: rest =>
    if t = 't' ∧ a = 'a' ∧ g = 'g' then
      let rest3 := (dropOpt ':' (dropOpt 's' rest)).dropWhile isSpaceChar
      let digits := rest3.takeWhile isDigitChar
      if digits.isEmpty then none
      else some (digits, rest3.dropWhile isDigitChar)
    else none
  | _ => none

/-- One match attempt of the full tag regex: the hash alternative first,
then the tags-keyword alternative, as re alternation does. -/
def matchTagAt (l : List Char) : Option (List Char × List Char) :=
  match matchHashAt l with
  | some res => some res
  | none => matchTagsWordAt l

/-- Non-overlapping left-to-right findall scan for the tag regex, with the
same fuel convention as findKeysAux. -/
def findTagsAux : Nat → List Char → List (List Char)
  | 0, _ => []
  | Nat.succ n, l =>
    match l with
    | [] => []
    | _ :: rest =>
      match matchTagAt l with
      | some (g, r) => g :: findTagsAux n r
      | none => findTagsAux n rest

/-- All non-empty captured groups of the tag regex over a message, in
match order (the cleaned_tags list of the Python code). -/
def tagMatches (m : String) : List String :=
  (findTagsAux m.data.length.succ m.data).map (fun cs => String.mk cs)

/-- Model of extract_tags (github_script.py lines 654-663). -/
def extract_tags (message : Option String) : List String :=
  match message with
  | none => ["No tag found"]
  | some m =>
    if m = "" then ["No tag found"]
    else if tagMatches m = [] then ["No tag found"]
    else tagMatches m

/-! ## safe_get (jira_script.py lines 315-322)

Python values reachable by safe_get are modelled by a small JSON-like
type; dictionaries keep their entries as an association list.  The Python
comparison dct != {} only ever compares against the empty dictionary, so
it is modelled by an emptiness test. -/

/-- JSON-like Python value: dictionary, string, integer or None. -/
inductive PyVal where
  | dict : List (String × PyVal) → PyVal
  | str : String → PyVal
  | int : Int → PyVal
  | pynone : PyVal

/-- Dictionary lookup, first entry with the given key (Python dict.get). -/
def pyLookup : List (String × PyVal) → String → Option PyVal
  | [], _ => none
  | (k, v) :: rest, key => if k = key then some v else pyLookup rest key

/-- Test whether a value equals the Python empty dictionary. -/
def isEmptyDict : PyVal → Bool
  | .dict [] => true
  | _ => false

/-- One step of the safe_get loop: dct.get(key, {}) if dct is a dict,
otherwise {}. -/
def safeGetStep (d : PyVal) (key : String) : PyVal :=
  match d with
  | .dict entries => (pyLookup entries key).getD (.dict [])
  | _ => .dict []

/-- Model of JiraGitHubIntegrator.safe_get: fold the path segments through
safeGetStep, then return the default if the result equals {}. -/
def safe_get (dct : PyVal) (keys : String) (default : PyVal) : PyVal :=
  let final := (pySplitDot keys).foldl safeGetStep dct
  if isEmptyDict final then default else final

/-- Specification-side path resolution: some value when every segment
resolves through nested dictionaries, none as soon as a segment is missing
or a non-dictionary is reached with segments left. -/
def resolvePath : PyVal → List String → Option PyVal
  | v, [] => some v
  | .dict entries, k :: rest =>
    match pyLookup entries k with
    | some v => resolvePath v rest
    | none => none
  | _, _ :: _ => none

/-! ## Paginated fetch loops (github_script.py fetch_and_store_commits and
commits.py get_commits_for_jira_key)

The page fetch (get_github_data after its retries, including its invalid
payload check) is modelled as a function from page number to an optional
page: none is a permanently failed or invalid page.  The per-commit detail
fetch and store of fetch_and_store_commits touch single records inside one
page and are independent of the page sequencing under scrutiny, so a page
is modelled by the list of records it contributes. -/

/-- Pagination loop of fetch_and_store_commits (github_script.py lines
180-231): stop on a failed or empty page, otherwise keep the page records
and continue while the page was full. -/
def fetchLoop (fetch : Nat → Option (List String)) (perPage : Nat) : Nat → Nat → List String
  | 0, _ => []
  | Nat.succ fuel, page =>
    match fetch page with
    | none => []
    | some [] => []
    | some data =>
      if data.length < perPage then data
      else data ++ fetchLoop fetch perPage fuel (page + 1)

/-- Per-branch page loop of get_commits_for_jira_key (commits.py lines
146-187): a fetch returns the records kept from the page plus the
has-next-page signal of the response links; an exception (none) leaves the
loop for this branch. -/
def jiraBranchLoop (fetch : Nat → Option (List String × Bool)) : Nat → Nat → List String
  | 0, _ => []
  | Nat.succ fuel, page =>
    match fetch page with
    | none => []
    | some ([], _) => []
    | some (data, hasNext) =>
      data ++ (if hasNext then jiraBranchLoop fetch fuel (page + 1) else [])

/-- Model of get_commits_for_jira_key over its branch list: branches are
walked in order and each contributes its own page loop; a failure inside
one branch only ends that branch. -/
def get_commits_for_jira_key (branches : List String)
    (fetch : String → Nat → Option (List String × Bool)) (fuel : Nat) : List String :=
  branches.flatMap (fun b => jiraBranchLoop (fetch b) fuel 1)

/-! ## get_github_data (github_script.py lines 131-162) and
get_all_branches (github_script.py lines 74-119)

Responses are scripted: attempt number k receives the k-th script entry,
either an exception or a response carrying HTTP status, the two rate-limit
headers (absent headers are none) and a payload.  A virtual clock starts
at t0; issuing a request is instantaneous and every sleep advances the
clock by exactly the slept duration.  The request log records when (and
for get_all_branches, for which page) each request was issued. -/

/-- Scripted response for get_github_data. -/
structure GHResp where
  status : Nat
  remainingHdr : Option Nat
  resetHdr : Option Int
  payload : Nat
deriving DecidableEq

/-- Outcome of one attempt inside get_github_data. -/
inductive GHAttempt where
  | exc : GHAttempt
  | resp : GHResp → GHAttempt
deriving DecidableEq

/-- Result of a get_github_data run: the returned value and the times its
requests were issued. -/
structure GHTrace where
  result : Option Nat
  requestTimes : List Int
deriving DecidableEq

/-- Attempt loop of get_github_data.  The rate-limit check reads the
remaining header with Python default 0 and runs before the status checks;
its sleep is max(reset - now, 0) + 10, a transient retry sleeps 5, a 200
returns the payload and a 404 returns None at once. -/
def ghGo (script : Nat → GHAttempt) : Nat → Nat → Int → List Int → GHTrace
  | 0, _, _, times => ⟨none, times⟩
  | Nat.succ fuel, idx, now, times =>
    match script idx with
    | .exc => ghGo script fuel (idx + 1) (now + 5) (times ++ [now])
    | .resp r =>
      if r.remainingHdr.getD 0 ≤ 1 then
        ghGo script fuel (idx + 1)
          (now + (max (r.resetHdr.getD (now + 3600) - now) 0 + 10)) (times ++ [now])
      else if r.status = 200 then ⟨some r.payload, times ++ [now]⟩
      else if r.status = 404 then ⟨none, times ++ [now]⟩
      else ghGo script fuel (idx + 1) (now + 5) (times ++ [now])

/-- Model of get_github_data: at most max_retries = 3 attempts, then
None. -/
def get_github_data (script : Nat → GHAttempt) (t0 : Int) : GHTrace :=
  ghGo script 3 0 t0 []

/-- An attempt that the retry loop treats as transient: an exception, or a
response whose status is neither 200 nor 404. -/
def isTransient (a : GHAttempt) : Bool :=
  match a with
  | .exc => true
  | .resp r => !(r.status = 200) && !(r.status = 404)

/-- An attempt that cannot trigger the rate-limit branch: any exception,
or a response reporting at least 2 remaining calls. -/
def rateOk (a : GHAttempt) : Bool :=
  match a with
  | .exc => true
  | .resp r => 2 ≤ r.remainingHdr.getD 0

/-- Scripted response for get_all_branches. -/
structure BrResp where
  status : Nat
  remainingHdr : Option Nat
  resetHdr : Option Int
  data : List String
deriving DecidableEq

/-- Outcome of one request inside get_all_branches. -/
inductive BrAttempt where
  | exc : BrAttempt
  | resp : BrResp → BrAttempt
deriving DecidableEq

/-- Result of a get_all_branches run: collected branch names and the
request log as (time, page) pairs. -/
structure BrTrace where
  branches : List String
  requests : List (Int × Nat)
deriving DecidableEq

/-- Request loop of get_all_branches.  Only a 403 whose remaining header
is present and equal to 0 suspends (for max(reset - now, 0) + 5) and
retries the same page; a missing reset header there raises and breaks.
Any other non-2xx breaks via raise_for_status, an empty page ends the
walk, and a full page advances to the next page with no delay. -/
def gabGo (script : Nat → BrAttempt) :
    Nat → Nat → Nat → Int → List String → List (Int × Nat) → BrTrace
  | 0, _, _, _, acc, reqs => ⟨acc, reqs⟩
  | Nat.succ fuel, k, page, now, acc, reqs =>
    match script k with
    | .exc => ⟨acc, reqs ++ [(now, page)]⟩
    | .resp r =>
      if r.status = 403 ∧ r.remainingHdr = some 0 then
        match r.resetHdr with
        | some reset =>
          gabGo script fuel (k + 1) page (now + (max (reset - now) 0 + 5)) acc
            (reqs ++ [(now, page)])
        | none => ⟨acc, reqs ++ [(now, page)]⟩
      else if 400 ≤ r.status then ⟨acc, reqs ++ [(now, page)]⟩
      else if r.data.isEmpty then ⟨acc, reqs ++ [(now, page)]⟩
      else if r.data.length < 100 then ⟨acc ++ r.data, reqs ++ [(now, page)]⟩
      else gabGo script fuel (k + 1) (page + 1) now (acc ++ r.data) (reqs ++ [(now, page)])

/-- Model of get_all_branches starting at page 1 and clock t0. -/
def get_all_branches (script : Nat → BrAttempt) (fuel : Nat) (t0 : Int) : BrTrace :=
  gabGo script fuel 0 1 t0 [] []

/-! ## Reconciliation pass (Contributors.py JiraProcessor.process_jira_issues)

The fetched issues and the three database snapshots read at the start of
the pass are inputs; the output is the list of INSERT statements the loop
executes together with the insert and update counters.  Issue records are
modelled by the three fields the loop reads: the key, the nested status
name (None when extract_status falls back to "Unknown") and the first
sprint name. -/

/-- One fetched Jira issue as read by the process_jira_issues loop. -/
structure JiraIssue where
  key : Option String
  statusName : Option String
  sprintName : Option String
deriving DecidableEq

/-- Model of JiraProcessor.extract_status: the nested status name, or the
fallback "Unknown" when the field chain is missing. -/
def extract_status (i : JiraIssue) : String := i.statusName.getD "Unknown"

/-- One executed INSERT INTO jira_issue_commits statement. -/
structure WriteStmt where
  sprint : Option String
  jira_key : Option String
  status : String
  commit_sha : Option String
deriving DecidableEq

/-- The three snapshots the pass reads before its loop: existing_map keyed
by (jira_key, commit_sha), the distinct existing jira keys, and the
commit_jira association from key to its commit shas. -/
structure PJInput where
  existingMap : List ((String × Option String) × String)
  existingKeys : List String
  jiraCommits : List (String × List String)
deriving DecidableEq

/-- existing_map.get((key, sha)): the persisted status of the pair. -/
def existingLookup (inp : PJInput) (key : Option String) (sha : Option String) : Option String :=
  key.bind (fun k => (inp.existingMap.find? (fun e => decide (e.1 = (k, sha)))).map (fun e => e.2))

/-- jira_commits.get(key, [None]): the candidate commit shas of the issue,
with a single None sentinel when the key has no commit associations. -/
def candidateShas (inp : PJInput) (key : Option String) : List (Option String) :=
  match key.bind (fun k => (inp.jiraCommits.find? (fun e => decide (e.1 = k))).map (fun e => e.2)) with
  | some shas => shas.map some
  | none => [none]

/-- is_new_jira_key: the key is not among the persisted distinct keys (a
missing key is never persisted, hence new). -/
def isNewKey (inp : PJInput) (key : Option String) : Bool :=
  match key with
  | some k => !(inp.existingKeys.contains k)
  | none => true

/-- Body of the inner commit loop for one issue: each candidate sha either
yields an executed statement (flag true when counted as insert, that is
when no previous status existed) or is skipped. -/
def processIssue (inp : PJInput) (issue : JiraIssue) : List (WriteStmt × Bool) :=
  (candidateShas inp issue.key).filterMap (fun sha =>
    let existing := existingLookup inp issue.key sha
    let stmt : WriteStmt := ⟨issue.sprintName, issue.key, extract_status issue, sha⟩
    if isNewKey inp issue.key then some (stmt, existing.isNone)
    else if existing.isNone then some (stmt, true)
    else if existing ≠ some (extract_status issue) then some (stmt, false)
    else none)

/-- Result of one process_jira_issues pass. -/
structure PJResult where
  writes : List WriteStmt
  inserts : Nat
  updates : Nat
deriving DecidableEq

/-- Accumulation step of the issue loop: append the executed statements
and add the insert and update counts of one issue. -/
def pjStep (inp : PJInput) (acc : PJResult) (issue : JiraIssue) : PJResult :=
  let ws := processIssue inp issue
  ⟨acc.writes ++ ws.map Prod.fst,
   acc.inserts + (ws.filter (fun w => w.2)).length,
   acc.updates + (ws.filter (fun w => !w.2)).length⟩

/-- Model of JiraProcessor.process_jira_issues (Contributors.py lines
271-349): fold the fetched issues, accumulating executed statements and
the insert and update counters. -/
def process_jira_issues (inp : PJInput) (issues : List JiraIssue) : PJResult :=
  issues.foldl (pjStep inp) ⟨[], 0, 0⟩

/-! ## Identity Resolver (Contributors.py _load_login_mappings,
process_commit_jira_links, _update_login_mappings)

The in-memory github_jira_mapping dictionary is an association list in
insertion order with the Python dict update semantics (overwrite in
place, append when new).  The Jira issue fetch is an oracle from issue key
to an optional issue; the issue_cache, the commit_contributors updates and
the network fetches actually performed are tracked in the state. -/

/-- Python dict lookup on an insertion-ordered association list. -/
def dictGet (m : List (String × String)) (k : String) : Option String :=
  (m.find? (fun e => decide (e.1 = k))).map (fun e => e.2)

/-- Python dict assignment m[k] = v: overwrite in place if the key exists,
append otherwise. -/
def dictInsert (m : List (String × String)) (k v : String) : List (String × String) :=
  if m.any (fun e => decide (e.1 = k)) then
    m.map (fun e => if e.1 = k then (k, v) else e)
  else m ++ [(k, v)]

/-- One row of the commit query of process_commit_jira_links. -/
structure C5Row where
  sha : String
  message : String
  login : String
  team_member : Option String
deriving DecidableEq

/-- Assignee object of a fetched Jira issue. -/
structure C5Assignee where
  displayName : Option String
  emailAddress : Option String
deriving DecidableEq

/-- The parts of a fetched Jira issue that process_commit_jira_links
reads: the assignee and the extracted team and vendor field values. -/
structure C5Issue where
  assignee : Option C5Assignee
  team : Option String
  vendor : Option String
deriving DecidableEq

/-- One UPDATE commit_contributors statement issued after a mapping was
learned from a Jira issue. -/
structure ContribUpdate where
  team_member : String
  team : Option String
  vendor : Option String
  login : String
deriving DecidableEq

/-- Mutable state of one process_commit_jira_links pass. -/
structure C5State where
  mapping : List (String × String)
  cache : List (String × Option C5Issue)
  fetched : List String
  cacheHitUpdates : List (String × String)
  learnedUpdates : List ContribUpdate
deriving DecidableEq

/-- Model of _load_login_mappings: seed the in-memory map from the
persisted rows, lower-casing each login. -/
def load_login_mappings (db : List (String × String)) : List (String × String) :=
  db.foldl (fun m e => dictInsert m (pyLower e.1) e.2) []

/-- Model of _fetch_jira_issue: consult the issue_cache first (a cached
None is returned without refetching), otherwise ask the oracle, cache the
answer and log the network fetch. -/
def fetch_jira_issue (oracle : String → Option C5Issue) (st : C5State) (key : String) :
    Option C5Issue × C5State :=
  match st.cache.find? (fun e => decide (e.1 = key)) with
  | some e => (e.2, st)
  | none =>
    (oracle key, { st with
                   cache := st.cache ++ [(key, oracle key)],
                   fetched := st.fetched ++ [key] })

/-- Inner loop over the issue keys extracted from one commit message:
fetch each issue until one has an assignee with a non-empty display name,
then store the mapping under the lower-cased login and issue the
contributor update (the Python break). -/
def tryIssueKeys (oracle : String → Option C5Issue) (nl login : String) :
    C5State → List String → C5State
  | st, [] => st
  | st, k :: rest =>
    let fr := fetch_jira_issue oracle st k
    match fr.1 with
    | none => tryIssueKeys oracle nl login fr.2 rest
    | some issue =>
      match issue.assignee with
      | none => tryIssueKeys oracle nl login fr.2 rest
      | some a =>
        match a.displayName with
        | some nm =>
          if nm = "" then tryIssueKeys oracle nl login fr.2 rest
          else { fr.2 with
                 mapping := dictInsert fr.2.mapping nl nm,
                 learnedUpdates := fr.2.learnedUpdates ++ [⟨nm, issue.team, issue.vendor, login⟩] }
        | none => tryIssueKeys oracle nl login fr.2 rest

/-- Body of the commit loop of process_commit_jira_links: a login whose
lower-cased form is already mapped gets the cached team member (no issue
fetch); otherwise the extracted issue keys are tried in order. -/
def processRow (oracle : String → Option C5Issue) (st : C5State) (row : C5Row) : C5State :=
  match dictGet st.mapping (pyLower row.login) with
  | some tm => { st with cacheHitUpdates := st.cacheHitUpdates ++ [(tm, row.login)] }
  | none => tryIssueKeys oracle (pyLower row.login) row.login st
      (extract_jira_issue_keys (some row.message))

/-- Model of _update_login_mappings: walk the in-memory map in insertion
order and upsert each non-empty pair into user_login_mappings (ON CONFLICT
(login) DO UPDATE SET username), keying by the lower-cased login. -/
def update_login_mappings (db : List (String × String)) (mapping : List (String × String)) :
    List (String × String) :=
  mapping.foldl (fun acc e =>
    if e.1 = "" || e.2 = "" then acc else dictInsert acc (pyLower e.1) e.2) db

/-- Model of process_commit_jira_links over the queried rows: seed the map
from the persisted table, fold the rows, then persist the map; returns the
final state and the persisted user_login_mappings table. -/
def process_commit_jira_links (oracle : String → Option C5Issue)
    (db : List (String × String)) (rows : List C5Row) : C5State × List (String × String) :=
  let st := rows.foldl (processRow oracle) ⟨load_login_mappings db, [], [], [], []⟩
  (st, update_login_mappings db st.mapping)

/-! ## Concrete inputs used by counterexamples and witnesses -/

/-- Page script with N = 3 pages where page 2 fails permanently: page 1 is
full, page 2 returns no data after its retries, page 3 holds one record. -/
def cex2fetch : Nat → Option (List String) := fun p =>
  if p = 1 then some (List.replicate 100 "p1") else
  if p = 2 then none else
  if p = 3 then some ["p3"] else some []

/-- Page script where page 1 is full (page size 2) and page 2 fails. -/
def wit2fetch : Nat → Option (List String) := fun q =>
  if q = 1 then some ["a", "b"] else none

/-- Attempt script whose first response is a 404 that also reports 0
remaining rate-limit calls with reset time 100. -/
def cex8script : Nat → GHAttempt := fun i =>
  if i = 0 then .resp ⟨404, some 0, some 100, 0⟩ else .resp ⟨404, some 5, none, 0⟩

/-- Attempt script with one exception followed by clean 404 responses. -/
def wit8script : Nat → GHAttempt := fun i =>
  if i = 0 then .exc else .resp ⟨404, some 5, none, 7⟩

/-- Branch-request script whose first response is a 200 with a full page
that reports 0 remaining rate-limit calls and reset time 100. -/
def cex9script : Nat → BrAttempt := fun k =>
  if k = 0 then .resp ⟨200, some 0, some 100, List.replicate 100 "b"⟩
  else .resp ⟨200, some 0, some 100, []⟩

/-- Branch-request script whose first response is a 403 with remaining 0
and reset time 50. -/
def wit9script : Nat → BrAttempt := fun k =>
  if k = 0 then .resp ⟨403, some 0, some 50, ["x"]⟩ else .exc

/-- Jira oracle knowing one issue, GJA-1, assigned to Bob Smith. -/
def cexOracle : String → Option C5Issue := fun k =>
  if k = "GJA-1" then some ⟨some ⟨some "Bob Smith", none⟩, none, none⟩ else none

/-- Resolver state seeded with one mapping for the login alice. -/
def wit5st : C5State := ⟨[("alice", "X")], [], [], [], []⟩

/-- Commit row authored by the login ALICE (a case variant of alice). -/
def wit5row : C5Row := ⟨"s1", "m", "ALICE", none⟩

/-- Snapshot where key K1 with commit S is persisted unchanged. -/
def wit3inp : PJInput := ⟨[(("K1", some "S"), "Done")], ["K1"], [("K1", ["S"])]⟩

/-- Snapshot where the pair (K1, S) is persisted unchanged but K1 is not
among the persisted distinct keys. -/
def wit4inp : PJInput := ⟨[(("K1", some "S"), "Done")], [], [("K1", ["S"])]⟩

/-- Issue K1 whose status matches the persisted row. -/
def wit34issue : JiraIssue := ⟨some "K1", some "Done", none⟩

/-! ## Lemmas and claim theorems -/

theorem advanceStage_eq (ts : List Transition) (t : Int) :
    ∀ cur, advanceStage ts t cur =
      match (ts.filter (fun tr => tr.transition_date ≤ t)).getLast? with
      | some tr => tr.to_stage
      | none => cur := by
  induction ts with
  | nil => intro cur; rfl
  | cons tr ts ih =>
    intro cur
    simp only [advanceStage, List.foldl_cons, ge_iff_le] at *
    by_cases h : tr.transition_date ≤ t
    · rw [if_pos h, ih tr.to_stage]
      have hfil : List.filter (fun tr => decide (tr.transition_date ≤ t)) (tr :: ts) =
          tr :: List.filter (fun tr => decide (tr.transition_date ≤ t)) ts := by
        simp [List.filter_cons, h]
      rw [hfil, List.getLast?_cons]
      cases hl : (List.filter (fun tr => decide (tr.transition_date ≤ t)) ts).getLast? with
      | some x => simp [hl]
      | none => simp [hl]
    · rw [if_neg h]
      have hfil : List.filter (fun tr => decide (tr.transition_date ≤ t)) (tr :: ts) =
          List.filter (fun tr => decide (tr.transition_date ≤ t)) ts := by
        simp [List.filter_cons, h]
      rw [hfil]
      exact ih cur

theorem latestStage_nil_of_le (ts : List Transition) (t u : Int) (htu : t ≤ u)
    (h : ts.filter (fun tr => tr.transition_date ≤ u) = []) :
    ts.filter (fun tr => tr.transition_date ≤ t) = [] := by
  rw [List.filter_eq_nil_iff] at h ⊢
  intro a ha
  have := h a ha
  simp only [decide_eq_true_eq] at this ⊢
  omega

theorem mapStagesGo_eq (jk : String) (ts : List Transition) :
    ∀ (cs : List CommitRec) (cur : String),
      List.Pairwise (fun a b => a.date ≤ b.date) cs →
      (∀ c ∈ cs, ts.filter (fun tr => tr.transition_date ≤ c.date) = [] → cur = "TO DO") →
      mapStagesGo jk ts cs cur =
        cs.map (fun c => ⟨jk, c.sha, c.date, latestStage ts c.date⟩) := by
  intro cs
  induction cs with
  | nil => intro cur _ _; rfl
  | cons c rest ih =>
    intro cur hp hcur
    have hp2 := List.pairwise_cons.mp hp
    have hhead : advanceStage ts c.date cur = latestStage ts c.date := by
      rw [advanceStage_eq]
      unfold latestStage
      cases hfl : (ts.filter (fun tr => tr.transition_date ≤ c.date)).getLast? with
      | some x => rfl
      | none =>
        have hnil : ts.filter (fun tr => tr.transition_date ≤ c.date) = [] :=
          List.getLast?_eq_none_iff.mp hfl
        exact hcur c (List.mem_cons_self c rest) hnil
    simp only [mapStagesGo, List.map_cons]
    rw [hhead]
    refine congrArg _ ?_
    refine ih (latestStage ts c.date) hp2.2 ?_
    intro c2 hc2 hnil2
    have hle : c.date ≤ c2.date := hp2.1 c2 hc2
    have hnil1 := latestStage_nil_of_le ts c.date c2.date hle hnil2
    unfold latestStage
    rw [hnil1]
    rfl

/-- C1 (confirmed): map_commits_to_stages stably sorts both lists
ascending by timestamp and assigns every commit the to_stage of the latest
transition whose timestamp is at most the commit timestamp, with the
initial stage "TO DO" for a commit preceding every transition and for
every commit when there are no transitions; commits at 1, 3, 5 with
transitions (2, In Progress) and (4, Done) get TO DO, In Progress, Done. -/
theorem timeline_mapping_correct :
    (∀ (jk : String) (transitions : List Transition) (commits : List CommitRec),
      map_commits_to_stages jk transitions commits =
        (sortCommits commits).map
          (fun c => ⟨jk, c.sha, c.date, latestStage (sortTransitions transitions) c.date⟩)
      ∧ List.Pairwise (fun a b => a.date ≤ b.date) (sortCommits commits)
      ∧ (sortCommits commits).Perm commits
      ∧ List.Pairwise (fun a b => a.transition_date ≤ b.transition_date)
          (sortTransitions transitions)
      ∧ (sortTransitions transitions).Perm transitions)
    ∧ map_commits_to_stages "K" [⟨"In Progress", 2⟩, ⟨"Done", 4⟩]
        [⟨"c1", 1⟩, ⟨"c2", 3⟩, ⟨"c3", 5⟩] =
        [⟨"K", "c1", 1, "TO DO"⟩, ⟨"K", "c2", 3, "In Progress"⟩, ⟨"K", "c3", 5, "Done"⟩]
    ∧ (∀ (jk : String) (commits : List CommitRec),
        ∀ sc ∈ map_commits_to_stages jk [] commits, sc.stage = "TO DO") := by
  have hsortc : ∀ commits : List CommitRec,
      List.Pairwise (fun a b => a.date ≤ b.date) (sortCommits commits) := by
    intro commits
    haveI : IsTotal CommitRec (fun a b => a.date ≤ b.date) := ⟨fun a b => le_total _ _⟩
    haveI : IsTrans CommitRec (fun a b => a.date ≤ b.date) :=
      ⟨fun _ _ _ h1 h2 => le_trans h1 h2⟩
    exact List.sorted_insertionSort _ commits
  have hsortt : ∀ ts : List Transition,
      List.Pairwise (fun a b => a.transition_date ≤ b.transition_date) (sortTransitions ts) := by
    intro ts
    haveI : IsTotal Transition (fun a b => a.transition_date ≤ b.transition_date) :=
      ⟨fun a b => le_total _ _⟩
    haveI : IsTrans Transition (fun a b => a.transition_date ≤ b.transition_date) :=
      ⟨fun _ _ _ h1 h2 => le_trans h1 h2⟩
    exact List.sorted_insertionSort _ ts
  have hmain : ∀ (jk : String) (transitions : List Transition) (commits : List CommitRec),
      map_commits_to_stages jk transitions commits =
        (sortCommits commits).map
          (fun c => ⟨jk, c.sha, c.date, latestStage (sortTransitions transitions) c.date⟩) := by
    intro jk transitions commits
    unfold map_commits_to_stages
    by_cases hc : commits.isEmpty
    · have : commits = [] := List.isEmpty_iff.mp hc
      subst this
      rfl
    · rw [if_neg hc]
      exact mapStagesGo_eq jk (sortTransitions transitions) (sortCommits commits) "TO DO"
        (hsortc commits) (fun _ _ _ => rfl)
  refine ⟨fun jk transitions commits =>
      ⟨hmain jk transitions commits, hsortc commits, List.perm_insertionSort _ commits,
       hsortt transitions, List.perm_insertionSort _ transitions⟩,
    by decide, ?_⟩
  intro jk commits sc hsc
  rw [hmain jk [] commits] at hsc
  obtain ⟨c, _, hceq⟩ := List.mem_map.mp hsc
  rw [← hceq]
  rfl

theorem foldSafeGet_empty (segs : List String) :
    segs.foldl safeGetStep (PyVal.dict []) = PyVal.dict [] := by
  induction segs with
  | nil => rfl
  | cons k rest ih => simpa [safeGetStep, pyLookup] using ih

theorem foldSafeGet_eq (segs : List String) :
    ∀ d : PyVal, segs.foldl safeGetStep d =
      match resolvePath d segs with
      | some v => v
      | none => PyVal.dict [] := by
  induction segs with
  | nil => intro d; cases d <;> rfl
  | cons k rest ih =>
    intro d
    cases d with
    | dict entries =>
      simp only [List.foldl_cons]
      cases hl : pyLookup entries k with
      | some v =>
        have hstep : safeGetStep (PyVal.dict entries) k = v := by
          simp [safeGetStep, hl]
        rw [hstep, ih v]
        simp [resolvePath, hl]
      | none =>
        have hstep : safeGetStep (PyVal.dict entries) k = PyVal.dict [] := by
          simp [safeGetStep, hl]
        rw [hstep, foldSafeGet_empty]
        simp [resolvePath, hl]
    | str s => simp only [List.foldl_cons, safeGetStep, foldSafeGet_empty, resolvePath]
    | int n => simp only [List.foldl_cons, safeGetStep, foldSafeGet_empty, resolvePath]
    | pynone => simp only [List.foldl_cons, safeGetStep, foldSafeGet_empty, resolvePath]

/-- C10 (confirmed): safe_get is total; it returns the stored value when
every dot-separated segment resolves through nested dictionaries to a
value other than the empty dictionary, and the supplied default whenever a
segment is missing, a non-dictionary is met along the path, or the
resolved value is the empty dictionary, the latter indistinguishable from
an absent field. -/
theorem safe_get_resolves_or_defaults :
    (∀ (dct : PyVal) (keys : String) (default : PyVal),
      safe_get dct keys default =
        match resolvePath dct (pySplitDot keys) with
        | some v => if isEmptyDict v then default else v
        | none => default)
    ∧ safe_get (.dict [("a", .dict [])]) "a" (.str "dflt") = .str "dflt"
    ∧ safe_get (.dict []) "a" (.str "dflt") = .str "dflt" := by
  refine ⟨?_, rfl, rfl⟩
  intro dct keys default
  unfold safe_get
  rw [foldSafeGet_eq]
  cases h : resolvePath dct (pySplitDot keys) with
  | some v => simp only []
  | none => simp [isEmptyDict]

theorem fetchLoop_failed_page (fetch : Nat → Option (List String)) (perPage : Nat)
    (hpp : 0 < perPage) :
    ∀ (fuel start p : Nat), start ≤ p → p - start < fuel → fetch p = none →
      (∀ q, start ≤ q → q < p → ∃ d, fetch q = some d ∧ d.length = perPage) →
      fetchLoop fetch perPage fuel start =
        (List.range' start (p - start)).flatMap (fun q => (fetch q).getD []) := by
  intro fuel
  induction fuel with
  | zero => intro start p _ h2 _ _; omega
  | succ n ih =>
    intro start p hsp hfuel hfail hfull
    by_cases hstart : start = p
    · subst hstart
      simp [fetchLoop, hfail]
    · have hlt : start < p := lt_of_le_of_ne hsp hstart
      obtain ⟨d, hd, hlen⟩ := hfull start le_rfl hlt
      cases d with
      | nil => simp at hlen; omega
      | cons x xs =>
        have hnotlt : ¬ (x :: xs).length < perPage := by omega
        simp only [fetchLoop, hd, if_neg hnotlt]
        rw [ih (start + 1) p (by omega) (by omega) hfail
          (fun q hq1 hq2 => hfull q (by omega) hq2)]
        have hps : p - start = (p - (start + 1)) + 1 := by omega
        rw [hps, List.range'_succ, List.flatMap_cons, hd]
        rfl

/-- C2 counterexample: with pages 1..3 where page 2 fails permanently, the
fetch loop keeps only page 1; the record of page 3 is never fetched,
contradicting the claim that pages 3..N are still fetched and stored. -/
theorem pagination_failure_loses_later_pages :
    fetchLoop cex2fetch 100 10 1 = List.replicate 100 "p1"
    ∧ cex2fetch 3 = some ["p3"]
    ∧ "p3" ∉ fetchLoop cex2fetch 100 10 1 := by
  refine ⟨by decide, by decide, by decide⟩

/-- C2 (amended): when page p of a paginated fetch fails permanently after
all retries, the loop breaks at page p: the records of the full pages
1..p-1 already fetched are exactly what is kept (and was stored), and no
page after p is ever requested; in get_commits_for_jira_key such a break
only ends the current branch and the remaining branches are still
walked. -/
theorem pagination_failure_truncates :
    (∀ (fetch : Nat → Option (List String)) (perPage p fuel : Nat),
      0 < perPage → 1 ≤ p → p ≤ fuel → fetch p = none →
      (∀ q, 1 ≤ q → q < p → ∃ d, fetch q = some d ∧ d.length = perPage) →
      fetchLoop fetch perPage fuel 1 =
        (List.range' 1 (p - 1)).flatMap (fun q => (fetch q).getD []))
    ∧ (∀ (b : String) (bs : List String)
        (fetch : String → Nat → Option (List String × Bool)) (fuel : Nat),
        get_commits_for_jira_key (b :: bs) fetch fuel =
          jiraBranchLoop (fetch b) fuel 1 ++ get_commits_for_jira_key bs fetch fuel) := by
  constructor
  · intro fetch perPage p fuel h1 h2 h3 h4 h5
    exact fetchLoop_failed_page fetch perPage h1 fuel 1 p h2 (by omega) h4 h5
  · intro b bs fetch fuel
    simp [get_commits_for_jira_key]

/-- Witness for the amended C2 at page size 2 with page 2 failing. -/
theorem pagination_failure_truncates_witness :
    fetchLoop wit2fetch 2 5 1 = (List.range' 1 (2 - 1)).flatMap (fun q => (wit2fetch q).getD []) :=
  pagination_failure_truncates.1 wit2fetch 2 2 5 (by decide) (by decide) (by decide) (by decide)
    (fun q hq1 hq2 => by
      have hq : q = 1 := by omega
      subst hq
      exact ⟨["a", "b"], rfl, rfl⟩)

theorem ghGo_transient_step (script : Nat → GHAttempt) (fuel idx : Nat) (now : Int)
    (times : List Int) (h : isTransient (script idx) = true)
    (hr : rateOk (script idx) = true) :
    ghGo script (fuel + 1) idx now times = ghGo script fuel (idx + 1) (now + 5) (times ++ [now]) := by
  cases ha : script idx with
  | exc => simp [ghGo, ha]
  | resp r =>
    rw [ha] at h hr
    simp only [isTransient, Bool.and_eq_true, Bool.not_eq_true', decide_eq_false_iff_not] at h
    simp only [rateOk, decide_eq_true_eq] at hr
    have h1 : ¬ r.remainingHdr.getD 0 ≤ 1 := by omega
    simp [ghGo, ha, h1, h.1, h.2]

theorem ghGo_404_step (script : Nat → GHAttempt) (fuel idx : Nat) (now : Int)
    (times : List Int) (r : GHResp) (ha : script idx = .resp r) (h4 : r.status = 404)
    (hr : rateOk (script idx) = true) :
    ghGo script (fuel + 1) idx now times = ⟨none, times ++ [now]⟩ := by
  rw [ha] at hr
  simp only [rateOk, decide_eq_true_eq] at hr
  have h1 : ¬ r.remainingHdr.getD 0 ≤ 1 := by omega
  have h2 : r.status ≠ 200 := by omega
  simp [ghGo, ha, h1, h2, h4]

theorem ghGo_len (script : Nat → GHAttempt) :
    ∀ (fuel idx : Nat) (now : Int) (times : List Int),
      (ghGo script fuel idx now times).requestTimes.length ≤ times.length + fuel := by
  intro fuel
  induction fuel with
  | zero => intro idx now times; simp [ghGo]
  | succ n ih =>
    intro idx now times
    unfold ghGo
    cases script idx with
    | exc =>
      have := ih (idx + 1) (now + 5) (times ++ [now])
      simp only [List.length_append, List.length_cons, List.length_nil] at this ⊢
      omega
    | resp r =>
      dsimp only
      by_cases h1 : r.remainingHdr.getD 0 ≤ 1
      · rw [if_pos h1]
        have := ih (idx + 1) (now + (max (r.resetHdr.getD (now + 3600) - now) 0 + 10))
          (times ++ [now])
        simp only [List.length_append, List.length_cons, List.length_nil] at this ⊢
        omega
      · rw [if_neg h1]
        by_cases h2 : r.status = 200
        · rw [if_pos h2]
          simp only [List.length_append, List.length_cons, List.length_nil]
          omega
        · rw [if_neg h2]
          by_cases h3 : r.status = 404
          · rw [if_pos h3]
            simp only [List.length_append, List.length_cons, List.length_nil]
            omega
          · rw [if_neg h3]
            have := ih (idx + 1) (now + 5) (times ++ [now])
            simp only [List.length_append, List.length_cons, List.length_nil] at this ⊢
            omega

theorem ghGo_times_mono (script : Nat → GHAttempt) :
    ∀ (fuel idx : Nat) (now : Int) (times : List Int),
      ∀ t ∈ (ghGo script fuel idx now times).requestTimes, t ∈ times ∨ now ≤ t := by
  intro fuel
  induction fuel with
  | zero =>
    intro idx now times t ht
    exact Or.inl (by simpa [ghGo] using ht)
  | succ n ih =>
    intro idx now times t ht
    unfold ghGo at ht
    cases hsc : script idx with
    | exc =>
      rw [hsc] at ht
      dsimp only at ht
      rcases ih (idx + 1) (now + 5) (times ++ [now]) t ht with h | h
      · simp only [List.mem_append, List.mem_singleton] at h
        rcases h with h | h
        · exact Or.inl h
        · exact Or.inr (by omega)
      · exact Or.inr (by omega)
    | resp r =>
      rw [hsc] at ht
      dsimp only at ht
      by_cases h1 : r.remainingHdr.getD 0 ≤ 1
      · rw [if_pos h1] at ht
        rcases ih (idx + 1) _ (times ++ [now]) t ht with h | h
        · simp only [List.mem_append, List.mem_singleton] at h
          rcases h with h | h
          · exact Or.inl h
          · exact Or.inr (by omega)
        · have hmax : (0:Int) ≤ max (r.resetHdr.getD (now + 3600) - now) 0 := le_max_right _ _
          exact Or.inr (by omega)
      · rw [if_neg h1] at ht
        by_cases h2 : r.status = 200
        · rw [if_pos h2] at ht
          simp only [List.mem_append, List.mem_singleton] at ht
          rcases ht with h | h
          · exact Or.inl h
          · exact Or.inr (by omega)
        · rw [if_neg h2] at ht
          by_cases h3 : r.status = 404
          · rw [if_pos h3] at ht
            simp only [List.mem_append, List.mem_singleton] at ht
            rcases ht with h | h
            · exact Or.inl h
            · exact Or.inr (by omega)
          · rw [if_neg h3] at ht
            rcases ih (idx + 1) (now + 5) (times ++ [now]) t ht with h | h
            · simp only [List.mem_append, List.mem_singleton] at h
              rcases h with h | h
              · exact Or.inl h
              · exact Or.inr (by omega)
            · exact Or.inr (by omega)

/-- C8 counterexample: the first attempt receives an HTTP 404 response
that also reports a remaining rate-limit budget of 0 with reset time 100;
get_github_data does not return None immediately but sleeps 110 seconds
(not 5) and issues a second request, contradicting the claimed terminal
404 and fixed 5-second transient delay. -/
theorem rate_limited_404_retries :
    get_github_data cex8script 0 = ⟨none, [0, 110]⟩
    ∧ cex8script 0 = .resp ⟨404, some 0, some 100, 0⟩ := by
  refine ⟨by decide, by decide⟩

/-- C8 (amended): get_github_data makes at most 3 attempts, and provided
every scripted response reports a remaining budget of at least 2 (so the
rate-limit branch, which intercepts any response reporting at most 1
remaining before the status is examined and consumes an attempt, never
fires): a 404 reached after transient attempts returns None at once with
no further request, each transient failure waits exactly 5 seconds before
the retry, and after 3 transient attempts the call returns None instead of
raising. -/
theorem bounded_retry_terminal_404 (script : Nat → GHAttempt) (t0 : Int)
    (hrate : ∀ i, i < 3 → rateOk (script i) = true) :
    (get_github_data script t0).requestTimes.length ≤ 3
    ∧ (∀ i, i < 3 → (∀ j, j < i → isTransient (script j) = true) →
        ∀ r, script i = .resp r → r.status = 404 →
          get_github_data script t0 = ⟨none, (List.range (i + 1)).map (fun j => t0 + 5 * j)⟩)
    ∧ ((∀ j, j < 3 → isTransient (script j) = true) →
        get_github_data script t0 = ⟨none, [t0, t0 + 5, t0 + 10]⟩) := by
  refine ⟨?_, ?_, ?_⟩
  · have := ghGo_len script 3 0 t0 []
    simpa [get_github_data] using this
  · intro i hi hprev r har h404
    interval_cases i
    · have e1 : ghGo script 3 0 t0 [] = ⟨none, [] ++ [t0]⟩ :=
        ghGo_404_step script 2 0 t0 [] r har h404 (hrate 0 (by omega))
      unfold get_github_data
      rw [e1]
      simp [List.range_succ]
    · have e1 : ghGo script 3 0 t0 [] = ghGo script 2 1 (t0 + 5) ([] ++ [t0]) :=
        ghGo_transient_step script 2 0 t0 [] (hprev 0 (by omega)) (hrate 0 (by omega))
      have e2 : ghGo script 2 1 (t0 + 5) ([] ++ [t0]) = ⟨none, ([] ++ [t0]) ++ [t0 + 5]⟩ :=
        ghGo_404_step script 1 1 (t0 + 5) ([] ++ [t0]) r har h404 (hrate 1 (by omega))
      unfold get_github_data
      rw [e1, e2]
      simp [List.range_succ]
    · have e1 : ghGo script 3 0 t0 [] = ghGo script 2 1 (t0 + 5) ([] ++ [t0]) :=
        ghGo_transient_step script 2 0 t0 [] (hprev 0 (by omega)) (hrate 0 (by omega))
      have e2 : ghGo script 2 1 (t0 + 5) ([] ++ [t0]) =
          ghGo script 1 2 (t0 + 5 + 5) (([] ++ [t0]) ++ [t0 + 5]) :=
        ghGo_transient_step script 1 1 (t0 + 5) ([] ++ [t0]) (hprev 1 (by omega))
          (hrate 1 (by omega))
      have e3 : ghGo script 1 2 (t0 + 5 + 5) (([] ++ [t0]) ++ [t0 + 5]) =
          ⟨none, (([] ++ [t0]) ++ [t0 + 5]) ++ [t0 + 5 + 5]⟩ :=
        ghGo_404_step script 0 2 (t0 + 5 + 5) (([] ++ [t0]) ++ [t0 + 5]) r har h404
          (hrate 2 (by omega))
      unfold get_github_data
      rw [e1, e2, e3]
      simp [List.range_succ, GHTrace.mk.injEq]
      omega
  · intro hall
    have e1 : ghGo script 3 0 t0 [] = ghGo script 2 1 (t0 + 5) ([] ++ [t0]) :=
      ghGo_transient_step script 2 0 t0 [] (hall 0 (by omega)) (hrate 0 (by omega))
    have e2 : ghGo script 2 1 (t0 + 5) ([] ++ [t0]) =
        ghGo script 1 2 (t0 + 5 + 5) (([] ++ [t0]) ++ [t0 + 5]) :=
      ghGo_transient_step script 1 1 (t0 + 5) ([] ++ [t0]) (hall 1 (by omega)) (hrate 1 (by omega))
    have e3 : ghGo script 1 2 (t0 + 5 + 5) (([] ++ [t0]) ++ [t0 + 5]) =
        ghGo script 0 3 (t0 + 5 + 5 + 5) ((([] ++ [t0]) ++ [t0 + 5]) ++ [t0 + 5 + 5]) :=
      ghGo_transient_step script 0 2 (t0 + 5 + 5) (([] ++ [t0]) ++ [t0 + 5]) (hall 2 (by omega))
        (hrate 2 (by omega))
    unfold get_github_data
    rw [e1, e2, e3]
    show (⟨none, (([] ++ [t0]) ++ [t0 + 5]) ++ [t0 + 5 + 5]⟩ : GHTrace) = _
    simp [GHTrace.mk.injEq]
    omega

/-- Witness for the amended C8: one exception then a clean 404 makes two
requests 5 seconds apart and returns None. -/
theorem bounded_retry_terminal_404_witness :
    get_github_data wit8script 0 = ⟨none, (List.range 2).map (fun j => 0 + 5 * j)⟩ :=
  (bounded_retry_terminal_404 wit8script 0 (by decide)).2.1 1 (by omega) (by decide)
    ⟨404, some 5, none, 7⟩ rfl rfl

theorem gabGo_requests_mono (script : Nat → BrAttempt) :
    ∀ (fuel k page : Nat) (now : Int) (acc : List String) (reqs : List (Int × Nat)),
      ∀ x ∈ (gabGo script fuel k page now acc reqs).requests, x ∈ reqs ∨ now ≤ x.1 := by
  intro fuel
  induction fuel with
  | zero =>
    intro k page now acc reqs x hx
    exact Or.inl (by simpa [gabGo] using hx)
  | succ n ih =>
    intro k page now acc reqs x hx
    unfold gabGo at hx
    cases hsc : script k with
    | exc =>
      rw [hsc] at hx
      dsimp only at hx
      simp only [List.mem_append, List.mem_singleton] at hx
      rcases hx with h | h
      · exact Or.inl h
      · exact Or.inr (by rw [h])
    | resp r =>
      rw [hsc] at hx
      dsimp only at hx
      by_cases h1 : r.status = 403 ∧ r.remainingHdr = some 0
      · rw [if_pos h1] at hx
        cases hreset : r.resetHdr with
        | some reset =>
          rw [hreset] at hx
          dsimp only at hx
          rcases ih (k + 1) page (now + (max (reset - now) 0 + 5)) acc
              (reqs ++ [(now, page)]) x hx with h | h
          · simp only [List.mem_append, List.mem_singleton] at h
            rcases h with h | h
            · exact Or.inl h
            · exact Or.inr (by rw [h])
          · have hmax : (0:Int) ≤ max (reset - now) 0 := le_max_right _ _
            exact Or.inr (by omega)
        | none =>
          rw [hreset] at hx
          dsimp only at hx
          simp only [List.mem_append, List.mem_singleton] at hx
          rcases hx with h | h
          · exact Or.inl h
          · exact Or.inr (by rw [h])
      · rw [if_neg h1] at hx
        by_cases h2 : 400 ≤ r.status
        · rw [if_pos h2] at hx
          simp only [List.mem_append, List.mem_singleton] at hx
          rcases hx with h | h
          · exact Or.inl h
          · exact Or.inr (by rw [h])
        · rw [if_neg h2] at hx
          by_cases h3 : r.data.isEmpty
          · rw [if_pos h3] at hx
            simp only [List.mem_append, List.mem_singleton] at hx
            rcases hx with h | h
            · exact Or.inl h
            · exact Or.inr (by rw [h])
          · rw [if_neg h3] at hx
            by_cases h4 : r.data.length < 100
            · rw [if_pos h4] at hx
              simp only [List.mem_append, List.mem_singleton] at hx
              rcases hx with h | h
              · exact Or.inl h
              · exact Or.inr (by rw [h])
            · rw [if_neg h4] at hx
              rcases ih (k + 1) (page + 1) now (acc ++ r.data) (reqs ++ [(now, page)]) x hx
                  with h | h
              · simp only [List.mem_append, List.mem_singleton] at h
                rcases h with h | h
                · exact Or.inl h
                · exact Or.inr (by rw [h])
              · exact Or.inr h

theorem gabGo_rate_step (script : Nat → BrAttempt) (fuel k page : Nat) (now : Int)
    (acc : List String) (reqs : List (Int × Nat)) (r : BrResp) (reset : Int)
    (ha : script k = .resp r) (h403 : r.status = 403) (hrem : r.remainingHdr = some 0)
    (hres : r.resetHdr = some reset) :
    gabGo script (fuel + 1) k page now acc reqs =
      gabGo script fuel (k + 1) page (now + (max (reset - now) 0 + 5)) acc
        (reqs ++ [(now, page)]) := by
  simp [gabGo, ha, h403, hrem, hres]

/-- C9 counterexample: get_all_branches receives a 200 response whose
headers report a remaining rate-limit budget of 0 with reset time 100, yet
it issues the next page request immediately at time 0, earlier than the
reset plus the safety margin; only a 403 triggers the suspension. -/
theorem non403_rate_zero_not_suspended :
    (get_all_branches cex9script 3 0).requests = [(0, 1), (0, 2)]
    ∧ cex9script 0 = .resp ⟨200, some 0, some 100, List.replicate 100 "b"⟩
    ∧ ¬ ((100:Int) + 5 ≤ 0) := by
  refine ⟨by decide, by decide, by decide⟩

/-- C9 (amended): the suspension fires exactly on the coded conditions.
In get_all_branches, a 403 response whose remaining header is present and
0 with reset time T makes the loop sleep max(T - now, 0) + 5 once, resume
the same page, and issue every later request no earlier than T + 5 (a
response reporting remaining 0 under any other status suspends nothing).
In get_github_data, any response reporting at most 1 remaining with reset
time T makes the loop sleep max(T - now, 0) + 10 once, resume with the
next attempt, and issue every later request no earlier than T + 10. -/
theorem rate_limit_suspension :
    (∀ (script : Nat → BrAttempt) (fuel k page : Nat) (now : Int) (acc : List String)
        (reqs : List (Int × Nat)) (r : BrResp) (reset : Int),
      script k = .resp r → r.status = 403 → r.remainingHdr = some 0 →
      r.resetHdr = some reset →
      gabGo script (fuel + 1) k page now acc reqs =
        gabGo script fuel (k + 1) page (now + (max (reset - now) 0 + 5)) acc
          (reqs ++ [(now, page)])
      ∧ reset + 5 ≤ now + (max (reset - now) 0 + 5)
      ∧ ∀ x ∈ (gabGo script (fuel + 1) k page now acc reqs).requests,
          x ∈ reqs ++ [(now, page)] ∨ reset + 5 ≤ x.1)
    ∧ (∀ (script : Nat → GHAttempt) (fuel idx : Nat) (now : Int) (times : List Int)
        (r : GHResp) (reset : Int),
      script idx = .resp r → r.remainingHdr.getD 0 ≤ 1 → r.resetHdr = some reset →
      ghGo script (fuel + 1) idx now times =
        ghGo script fuel (idx + 1) (now + (max (reset - now) 0 + 10)) (times ++ [now])
      ∧ reset + 10 ≤ now + (max (reset - now) 0 + 10)
      ∧ ∀ t ∈ (ghGo script (fuel + 1) idx now times).requestTimes,
          t ∈ times ++ [now] ∨ reset + 10 ≤ t) := by
  constructor
  · intro script fuel k page now acc reqs r reset ha h403 hrem hres
    have hstep := gabGo_rate_step script fuel k page now acc reqs r reset ha h403 hrem hres
    have hmax : (0:Int) ≤ max (reset - now) 0 := le_max_right _ _
    have hmax2 : reset - now ≤ max (reset - now) 0 := le_max_left _ _
    refine ⟨hstep, by omega, ?_⟩
    intro x hx
    rw [hstep] at hx
    rcases gabGo_requests_mono script fuel (k + 1) page (now + (max (reset - now) 0 + 5)) acc
        (reqs ++ [(now, page)]) x hx with h | h
    · exact Or.inl h
    · exact Or.inr (by omega)
  · intro script fuel idx now times r reset ha hrem hres
    have hstep : ghGo script (fuel + 1) idx now times =
        ghGo script fuel (idx + 1) (now + (max (reset - now) 0 + 10)) (times ++ [now]) := by
      simp [ghGo, ha, hrem, hres]
    have hmax : (0:Int) ≤ max (reset - now) 0 := le_max_right _ _
    have hmax2 : reset - now ≤ max (reset - now) 0 := le_max_left _ _
    refine ⟨hstep, by omega, ?_⟩
    intro t ht
    rw [hstep] at ht
    rcases ghGo_times_mono script fuel (idx + 1) (now + (max (reset - now) 0 + 10))
        (times ++ [now]) t ht with h | h
    · exact Or.inl h
    · exact Or.inr (by omega)

/-- Witness for the amended C9 on a concrete 403 rate-limited response
with reset time 50. -/
theorem rate_limit_suspension_witness :
    gabGo wit9script 1 0 1 0 [] [] =
      gabGo wit9script 0 1 1 (0 + (max ((50:Int) - 0) 0 + 5)) [] ([] ++ [(0, 1)])
    ∧ (50:Int) + 5 ≤ 0 + (max ((50:Int) - 0) 0 + 5)
    ∧ ∀ x ∈ (gabGo wit9script 1 0 1 0 [] []).requests,
        x ∈ ([] ++ [((0:Int), 1)]) ∨ (50:Int) + 5 ≤ x.1 :=
  rate_limit_suspension.1 wit9script 0 0 1 0 [] [] ⟨403, some 0, some 50, ["x"]⟩ 50
    rfl rfl rfl rfl

theorem processIssue_skip (inp : PJInput) (issue : JiraIssue) (k : String)
    (hk : issue.key = some k) (hex : inp.existingKeys.contains k = true)
    (hall : ∀ sha ∈ candidateShas inp issue.key,
      existingLookup inp issue.key sha = some (extract_status issue)) :
    processIssue inp issue = [] := by
  unfold processIssue
  rw [List.filterMap_eq_nil_iff]
  intro sha hsha
  have hst := hall sha hsha
  have hnew : isNewKey inp issue.key = false := by
    simp only [isNewKey, hk, Bool.not_eq_false']
    exact hex
  simp [hnew, hst]

theorem foldl_pjStep_skip (inp : PJInput) :
    ∀ (issues : List JiraIssue), (∀ i ∈ issues, processIssue inp i = []) →
      ∀ acc, issues.foldl (pjStep inp) acc = acc := by
  intro issues
  induction issues with
  | nil => intro _ acc; rfl
  | cons i rest ih =>
    intro h acc
    have hi := h i (List.mem_cons_self i rest)
    have hstep : pjStep inp acc i = acc := by
      simp [pjStep, hi]
    rw [List.foldl_cons, hstep]
    exact ih (fun j hj => h j (List.mem_cons_of_mem i hj)) acc

/-- C3 (confirmed): when every fetched issue has a key that is already
persisted and every candidate (jira_key, commit_sha) pair carries exactly
the persisted status, every candidate takes the skip branch: the pass
executes no write statement and counts zero inserts and zero updates, so
a second pass over unchanged data writes nothing. -/
theorem reconciliation_skip_idempotent (inp : PJInput) (issues : List JiraIssue)
    (h : ∀ i ∈ issues, ∃ k, i.key = some k ∧ inp.existingKeys.contains k = true ∧
        ∀ sha ∈ candidateShas inp i.key,
          existingLookup inp i.key sha = some (extract_status i)) :
    process_jira_issues inp issues = ⟨[], 0, 0⟩ := by
  unfold process_jira_issues
  refine foldl_pjStep_skip inp issues ?_ _
  intro i hi
  obtain ⟨k, hk, hex, hall⟩ := h i hi
  exact processIssue_skip inp i k hk hex hall

/-- Witness for C3 on a one-issue snapshot persisted unchanged. -/
theorem reconciliation_skip_idempotent_witness :
    process_jira_issues wit3inp [wit34issue] = ⟨[], 0, 0⟩ :=
  reconciliation_skip_idempotent wit3inp [wit34issue]
    (fun i hi => by
      have : i = wit34issue := by simpa using hi
      subst this
      exact ⟨"K1", rfl, by decide, by decide⟩)

theorem process_writes (inp : PJInput) :
    ∀ (issues : List JiraIssue) (acc : PJResult),
      (issues.foldl (pjStep inp) acc).writes =
        acc.writes ++ issues.flatMap (fun i => (processIssue inp i).map Prod.fst) := by
  intro issues
  induction issues with
  | nil => intro acc; simp
  | cons i rest ih =>
    intro acc
    rw [List.foldl_cons, ih]
    simp [pjStep, List.flatMap_cons]

/-- C4 (confirmed): an issue whose jira_key is not among the persisted
distinct keys gets an executed insert statement for every one of its
candidate commit shas, regardless of what existing_map holds for the pair,
including a pre-existing row that would compare as unchanged. -/
theorem new_key_inserts_unconditionally (inp : PJInput) (issues : List JiraIssue) :
    ∀ i ∈ issues, ∀ k, i.key = some k → inp.existingKeys.contains k = false →
      ∀ sha ∈ candidateShas inp i.key,
        (⟨i.sprintName, i.key, extract_status i, sha⟩ : WriteStmt) ∈
          (process_jira_issues inp issues).writes := by
  intro i hi k hk hnew sha hsha
  unfold process_jira_issues
  rw [process_writes]
  simp only [List.nil_append]
  rw [List.mem_flatMap]
  refine ⟨i, hi, ?_⟩
  rw [List.mem_map]
  refine ⟨(⟨i.sprintName, i.key, extract_status i, sha⟩, (existingLookup inp i.key sha).isNone),
    ?_, rfl⟩
  unfold processIssue
  rw [List.mem_filterMap]
  refine ⟨sha, hsha, ?_⟩
  have hnewk : isNewKey inp i.key = true := by
    simp only [isNewKey, hk, Bool.not_eq_true']
    exact hnew
  simp [hnewk]

/-- Witness for C4: key K1 is new while the pair (K1, S) pre-exists with
an identical status, and the insert statement is still executed. -/
theorem new_key_inserts_unconditionally_witness :
    (⟨wit34issue.sprintName, wit34issue.key, extract_status wit34issue, some "S"⟩ : WriteStmt) ∈
      (process_jira_issues wit4inp [wit34issue]).writes :=
  new_key_inserts_unconditionally wit4inp [wit34issue] wit34issue (by decide) "K1" rfl
    (by decide) (some "S") (by decide)

theorem dictGet_append_not_mem (k v : String) :
    ∀ m : List (String × String), m.any (fun e => decide (e.1 = k)) = false →
      dictGet (m ++ [(k, v)]) k = some v := by
  intro m
  induction m with
  | nil => intro _; simp [dictGet]
  | cons e es ih =>
    intro h
    simp only [List.any_cons, Bool.or_eq_false_iff, decide_eq_false_iff_not] at h
    show (List.find? (fun e => decide (e.1 = k)) (e :: (es ++ [(k, v)]))).map (fun e => e.2) =
      some v
    rw [List.find?_cons_of_neg _ (by simp [h.1])]
    exact ih h.2

theorem dictGet_map_replace (k v : String) :
    ∀ m : List (String × String), m.any (fun e => decide (e.1 = k)) = true →
      dictGet (m.map (fun e => if e.1 = k then (k, v) else e)) k = some v := by
  intro m
  induction m with
  | nil => intro h; simp at h
  | cons e es ih =>
    intro h
    by_cases he : e.1 = k
    · simp [dictGet, List.find?_cons_of_pos, he]
    · simp only [List.any_cons, Bool.or_eq_true_iff, decide_eq_true_eq] at h
      rcases h with h | h
      · exact absurd h he
      · simp only [List.map_cons, if_neg he]
        show (List.find? (fun e => decide (e.1 = k))
            (e :: es.map (fun e => if e.1 = k then (k, v) else e))).map (fun e => e.2) = some v
        rw [List.find?_cons_of_neg _ (by simp [he])]
        exact ih h

theorem dictGet_dictInsert_self (m : List (String × String)) (k v : String) :
    dictGet (dictInsert m k v) k = some v := by
  unfold dictInsert
  cases hany : m.any (fun e => decide (e.1 = k)) with
  | true =>
    rw [if_pos rfl]
    exact dictGet_map_replace k v m hany
  | false =>
    rw [if_neg (by simp)]
    exact dictGet_append_not_mem k v m hany

/-- C5 counterexample: the resolver map is keyed by the lower-cased login
without trimming.  With the mapping alice -> X seeded from storage, the
commit row authored by the login "Alice " (trailing blank) misses the
cache and re-derives a mapping through a Jira fetch, and the pass then
holds and persists the separate key "alice " next to "alice" — under the
claimed trimmed keying the seeded mapping would have been returned with no
fetch. -/
theorem untrimmed_login_key_counterexample :
    pyLower "Alice " = "alice "
    ∧ (process_commit_jira_links cexOracle [("alice", "X")]
        [⟨"s1", "GJA-1 fix", "Alice ", none⟩]).1.fetched = ["GJA-1"]
    ∧ dictGet (process_commit_jira_links cexOracle [("alice", "X")]
        [⟨"s1", "GJA-1 fix", "Alice ", none⟩]).1.mapping "alice " = some "Bob Smith"
    ∧ dictGet (process_commit_jira_links cexOracle [("alice", "X")]
        [⟨"s1", "GJA-1 fix", "Alice ", none⟩]).2 "alice " = some "Bob Smith"
    ∧ dictGet (process_commit_jira_links cexOracle [("alice", "X")]
        [⟨"s1", "GJA-1 fix", "Alice ", none⟩]).2 "alice" = some "X" := by
  refine ⟨by decide, by decide, by decide, by decide, by decide⟩

/-- C5 (amended): the resolver map is keyed by the lower-cased
(untrimmed) VCS login; once a mapping for that key is present, a lookup
through any case variant of the login returns it with no further
derivation, in-pass learning overwrites the in-memory entry in place, and
the end-of-pass persistence upserts each entry so that a later learned
mapping for the same key overwrites an earlier one. -/
theorem identity_resolver_lowercase_key :
    (∀ (oracle : String → Option C5Issue) (st : C5State) (row : C5Row) (tm : String),
      dictGet st.mapping (pyLower row.login) = some tm →
      processRow oracle st row =
        { st with cacheHitUpdates := st.cacheHitUpdates ++ [(tm, row.login)] })
    ∧ (∀ (l l2 : String), pyLower l = pyLower l2 →
        ∀ (m : List (String × String)) (v : String),
          dictGet (dictInsert m (pyLower l) v) (pyLower l2) = some v)
    ∧ (∀ (db m : List (String × String)) (k v : String), k ≠ "" → v ≠ "" →
        update_login_mappings db (m ++ [(k, v)]) =
          dictInsert (update_login_mappings db m) (pyLower k) v)
    ∧ (∀ (db : List (String × String)) (k v : String),
        dictGet (dictInsert db k v) k = some v) := by
  refine ⟨?_, ?_, ?_, ?_⟩
  · intro oracle st row tm h
    simp [processRow, h]
  · intro l l2 h m v
    rw [← h]
    exact dictGet_dictInsert_self m (pyLower l) v
  · intro db m k v hk hv
    unfold update_login_mappings
    rw [List.foldl_append]
    simp [hk, hv]
  · intro db k v
    exact dictGet_dictInsert_self db k v

/-- Witness for the amended C5: the seeded mapping answers a case-variant
login from the cache. -/
theorem identity_resolver_lowercase_key_witness :
    processRow cexOracle wit5st wit5row =
      { wit5st with cacheHitUpdates := wit5st.cacheHitUpdates ++ [("X", wit5row.login)] } :=
  identity_resolver_lowercase_key.1 cexOracle wit5st wit5row "X" (by decide)

theorem keyTailShape_of_run :
    ∀ (run digits : List Char), (∀ x ∈ run, isUpperAlnum x = true) → ¬ digits.isEmpty = true →
      (∀ d ∈ digits, isDigitChar d = true) → keyTailShape (run ++ '-' :: digits) = true := by
  intro run
  induction run with
  | nil =>
    intro digits _ hne hd
    show keyTailShape ('-' :: digits) = true
    unfold keyTailShape
    rw [if_pos rfl]
    simp only [Bool.and_eq_true, Bool.not_eq_true', List.all_eq_true]
    exact ⟨by simpa using hne, hd⟩
  | cons a run ih =>
    intro digits hrun hne hd
    have ha : isUpperAlnum a = true := hrun a (List.mem_cons_self a run)
    have hane : ¬ a = '-' := by
      intro hcontra
      rw [hcontra] at ha
      exact absurd ha (by decide)
    show keyTailShape (a :: (run ++ '-' :: digits)) = true
    unfold keyTailShape
    rw [if_neg hane]
    simp only [Bool.and_eq_true]
    exact ⟨ha, ih digits (fun x hx => hrun x (List.mem_cons_of_mem a hx)) hne hd⟩

theorem matchKeyAt_shape (l m r : List Char) (h : matchKeyAt l = some (m, r)) :
    isKeyShape m = true := by
  cases l with
  | nil => simp [matchKeyAt] at h
  | cons c rest =>
    unfold matchKeyAt at h
    dsimp only at h
    by_cases hc : isUpperAlpha c = true
    · rw [if_pos hc] at h
      cases hdw : rest.dropWhile isUpperAlnum with
      | nil => rw [hdw] at h; simp at h
      | cons d rest2 =>
        rw [hdw] at h
        dsimp only at h
        by_cases hd : d = '-'
        · rw [if_pos hd] at h
          by_cases he : (rest2.takeWhile isDigitChar).isEmpty = true
          · rw [if_pos he] at h; simp at h
          · rw [if_neg he] at h
            simp only [Option.some.injEq, Prod.mk.injEq] at h
            rw [← h.1]
            have hkt := keyTailShape_of_run (rest.takeWhile isUpperAlnum)
              (rest2.takeWhile isDigitChar)
              (fun x hx => List.mem_takeWhile_imp hx) he
              (fun x hx => List.mem_takeWhile_imp hx)
            simp [isKeyShape, hc, hkt]
        · rw [if_neg hd] at h; simp at h
    · rw [if_neg hc] at h; simp at h

theorem findKeysAux_shape :
    ∀ (n : Nat) (l : List Char), ∀ m ∈ findKeysAux n l, isKeyShape m = true := by
  intro n
  induction n with
  | zero => intro l m hm; simp [findKeysAux] at hm
  | succ k ih =>
    intro l m hm
    cases l with
    | nil => simp [findKeysAux] at hm
    | cons c rest =>
      unfold findKeysAux at hm
      cases hmk : matchKeyAt (c :: rest) with
      | none =>
        rw [hmk] at hm
        exact ih rest m hm
      | some pr =>
        rw [hmk] at hm
        dsimp only at hm
        rcases List.mem_cons.mp hm with h | h
        · rw [h]
          exact matchKeyAt_shape (c :: rest) pr.1 pr.2 hmk
        · exact ih pr.2 m h

/-- C6 counterexample: extract_jira_issue_keys is re.findall, a list with
one entry per occurrence; a message naming the same key twice yields the
key twice, contradicting the claimed duplicate-free set result. -/
theorem duplicate_keys_not_deduplicated :
    extract_jira_issue_keys (some "PROJ-1 PROJ-1") = ["PROJ-1", "PROJ-1"]
    ∧ ¬ (extract_jira_issue_keys (some "PROJ-1 PROJ-1")).Nodup := by
  refine ⟨by decide, by decide⟩

/-- C6 (amended): extract_jira_issue_keys returns the list, in order of
occurrence with duplicates preserved, of the well-formed ticket keys of
the upper-cased text: every returned key is an uppercase letter, then
uppercase alphanumerics, one hyphen, then digits; a None or empty message
yields the empty list, and the mixed-case example yields exactly
[PROJ-12, PROJ-99]. -/
theorem key_extraction_amended :
    (∀ (message : Option String), ∀ k ∈ extract_jira_issue_keys message,
      isKeyShape k.data = true)
    ∧ extract_jira_issue_keys none = []
    ∧ extract_jira_issue_keys (some "") = []
    ∧ extract_jira_issue_keys (some "fix for proj-12 and PROJ-99") = ["PROJ-12", "PROJ-99"] := by
  refine ⟨?_, rfl, by decide, by decide⟩
  intro message k hk
  cases message with
  | none => simp [extract_jira_issue_keys] at hk
  | some m =>
    unfold extract_jira_issue_keys at hk
    dsimp only at hk
    by_cases hm : m = ""
    · rw [if_pos hm] at hk; simp at hk
    · rw [if_neg hm] at hk
      obtain ⟨cs, hcs, hmk⟩ := List.mem_map.mp hk
      have : k.data = cs := by rw [← hmk]
      rw [this]
      exact findKeysAux_shape (pyUpper m).data.length (pyUpper m).data cs hcs

/-- Witness for the amended C6 at the example message from the spec. -/
theorem key_extraction_amended_witness :
    isKeyShape (String.data "PROJ-12") = true :=
  key_extraction_amended.1 (some "fix for proj-12 and PROJ-99") "PROJ-12" (by decide)

theorem isWordChar_of_digit (c : Char) (h : isDigitChar c = true) : isWordChar c = true := by
  simp [isWordChar, isUpperAlnum, h]

theorem matchHashAt_group (l g r : List Char) (h : matchHashAt l = some (g, r)) :
    ∀ c ∈ g, isWordChar c = true := by
  cases l with
  | nil => simp [matchHashAt] at h
  | cons c rest =>
    unfold matchHashAt at h
    dsimp only at h
    by_cases hc : c = '#'
    · rw [if_pos hc] at h
      by_cases hw : (rest.takeWhile isWordChar).isEmpty = true
      · rw [if_pos hw] at h; simp at h
      · rw [if_neg hw] at h
        simp only [Option.some.injEq, Prod.mk.injEq] at h
        intro x hx
        rw [← h.1] at hx
        exact List.mem_takeWhile_imp hx
    · rw [if_neg hc] at h; simp at h

theorem matchTagsWordAt_group (l g r : List Char) (h : matchTagsWordAt l = some (g, r)) :
    ∀ c ∈ g, isWordChar c = true := by
  match l with
  | [] => simp [matchTagsWordAt] at h
  | [t] => simp [matchTagsWordAt] at h
  | [t, a] => simp [matchTagsWordAt] at h
  | t :: a :: g2 :: rest =>
    unfold matchTagsWordAt at h
    dsimp only at h
    by_cases htag : t = 't' ∧ a = 'a' ∧ g2 = 'g'
    · rw [if_pos htag] at h
      set rest3 := (dropOpt ':' (dropOpt 's' rest)).dropWhile isSpaceChar with hrest3
      by_cases hd : (rest3.takeWhile isDigitChar).isEmpty = true
      · rw [if_pos hd] at h; simp at h
      · rw [if_neg hd] at h
        simp only [Option.some.injEq, Prod.mk.injEq] at h
        intro x hx
        rw [← h.1] at hx
        exact isWordChar_of_digit x (List.mem_takeWhile_imp hx)
    · rw [if_neg htag] at h; simp at h

theorem matchTagAt_group (l g r : List Char) (h : matchTagAt l = some (g, r)) :
    ∀ c ∈ g, isWordChar c = true := by
  unfold matchTagAt at h
  cases hh : matchHashAt l with
  | some pr =>
    rw [hh] at h
    dsimp only at h
    have hpr : pr = (g, r) := Option.some.inj h
    rw [hpr] at hh
    exact matchHashAt_group l g r hh
  | none =>
    rw [hh] at h
    dsimp only at h
    exact matchTagsWordAt_group l g r h

theorem findTagsAux_wordChar :
    ∀ (n : Nat) (l : List Char), ∀ g ∈ findTagsAux n l, ∀ c ∈ g, isWordChar c = true := by
  intro n
  induction n with
  | zero => intro l g hg; simp [findTagsAux] at hg
  | succ k ih =>
    intro l g hg
    cases l with
    | nil => simp [findTagsAux] at hg
    | cons c rest =>
      unfold findTagsAux at hg
      cases hmt : matchTagAt (c :: rest) with
      | none =>
        rw [hmt] at hg
        exact ih rest g hg
      | some pr =>
        rw [hmt] at hg
        dsimp only at hg
        rcases List.mem_cons.mp hg with h | h
        · rw [h]
          exact matchTagAt_group (c :: rest) pr.1 pr.2 hmt
        · exact ih pr.2 g h

theorem sentinel_not_in_tagMatches (m : String) : "No tag found" ∉ tagMatches m := by
  intro hmem
  unfold tagMatches at hmem
  obtain ⟨cs, hcs, hmk⟩ := List.mem_map.mp hmem
  have hall := findTagsAux_wordChar m.data.length.succ m.data cs hcs
  have hdata : cs = "No tag found".data := by
    have := congrArg String.data hmk
    simpa using this
  have hsp : ' ' ∈ cs := by
    rw [hdata]
    decide
  have := hall ' ' hsp
  exact absurd this (by decide)

/-- C7 (confirmed): extract_tags returns exactly the sentinel
["No tag found"] precisely when the message is None, empty, or yields no
match of the hash-token or tags-keyword patterns; otherwise it returns the
non-empty list of extracted tag strings, and it never returns the empty
list. -/
theorem tag_sentinel_iff (message : Option String) :
    (extract_tags message = ["No tag found"] ↔
      (message = none ∨ message = some "" ∨ ∃ m, message = some m ∧ tagMatches m = []))
    ∧ extract_tags message ≠ []
    ∧ (∀ m, message = some m → tagMatches m ≠ [] → extract_tags message = tagMatches m) := by
  cases message with
  | none =>
    refine ⟨iff_of_true rfl (Or.inl rfl), by simp [extract_tags], ?_⟩
    intro m hm
    cases hm
  | some m =>
    by_cases hm : m = ""
    · subst hm
      refine ⟨iff_of_true rfl (Or.inr (Or.inl rfl)), by simp [extract_tags], ?_⟩
      intro m2 hm2 hne
      have : m2 = "" := (Option.some.inj hm2).symm
      subst this
      exact absurd (by decide : tagMatches "" = []) hne
    · by_cases ht : tagMatches m = []
      · have hval : extract_tags (some m) = ["No tag found"] := by
          simp [extract_tags, hm, ht]
        refine ⟨iff_of_true hval (Or.inr (Or.inr ⟨m, rfl, ht⟩)), by simp [hval], ?_⟩
        intro m2 hm2 hne
        have : m2 = m := (Option.some.inj hm2).symm
        subst this
        exact absurd ht hne
      · have hval : extract_tags (some m) = tagMatches m := by
          simp [extract_tags, hm, ht]
        have hsent : extract_tags (some m) ≠ ["No tag found"] := by
          rw [hval]
          intro hcontra
          have : "No tag found" ∈ tagMatches m := by
            rw [hcontra]
            exact List.mem_cons_self _ _
          exact sentinel_not_in_tagMatches m this
        refine ⟨?_, by simpa [hval] using ht, ?_⟩
        · refine iff_of_false hsent ?_
          rintro (h | h | ⟨m2, hm2, hm2t⟩)
          · cases h
          · have : m = "" := Option.some.inj h
            exact hm this
          · have : m2 = m := (Option.some.inj hm2).symm
            subst this
            exact ht hm2t
        · intro m2 hm2 _
          have : m2 = m := (Option.some.inj hm2).symm
          subst this
          exact hval

/-- Witness for C7: a message with no hash token and no tags-keyword
payload yields exactly the sentinel. -/
theorem tag_sentinel_iff_witness :
    extract_tags (some "no markers here") = ["No tag found"] :=
  (tag_sentinel_iff (some "no markers here")).1.mpr
    (Or.inr (Or.inr ⟨"no markers here", rfl, by decide⟩))

/-- Witness for C1: a single commit of an issue with no transitions is
assigned the initial stage TO DO. -/
theorem timeline_mapping_correct_witness :
    (⟨"K", "c", 1, "TO DO"⟩ : StageCommit).stage = "TO DO" :=
  timeline_mapping_correct.2.2 "K" [⟨"c", 1⟩] ⟨"K", "c", 1, "TO DO"⟩ (by decide)
